import Mathlib

/-!
# Verification of the MX memory-search engine

Shallow embedding of the value-search, refine, pattern-parse, batch-cluster,
memory-gateway and pointer-chain-counting code of the MX repository
(`src/app/src/main/rust/src/...`), together with theorems settling the
frozen claims about it.

Conventions:
* Rust machine integers (`u8`, `u64`, `usize`, `i128`, …) are embedded as
  `Nat`/`Int`, with wrap-around or saturation written out explicitly at the
  places the source relies on it.
* Byte buffers are `List Nat` (each entry a byte value `< 256`).
* Kernel reads/writes are oracles passed in as function arguments.
* IEEE-754 comparisons (`f32`/`f64` epsilon tests) are not shallowly
  embeddable; every place the source compares floats is parameterised by a
  `FloatOracle`.  No claim settled here depends of the float semantics: the
  theorems quantify over the oracle.
-/

/-- `ValueType` from `search/types.rs`.  The `Xor` spelling of the source is
kept; `Auto`/`Xor` scan as 4-byte integers exactly like `Dword`. -/
inductive ValueType where
  | byte
  | word
  | dword
  | qword
  | float
  | double
  | auto
  | xor
deriving DecidableEq, Repr, Inhabited

/-- `ValueType::size` from `search/types.rs`. -/
def ValueType.size : ValueType → Nat
  | .byte => 1
  | .word => 2
  | .dword => 4
  | .qword => 8
  | .float => 4
  | .double => 8
  | .auto => 4
  | .xor => 4

/-- `ValueType::is_float_type` from `search/types.rs`. -/
def ValueType.is_float_type : ValueType → Bool
  | .float => true
  | .double => true
  | _ => false

/-- Little-endian byte list of length `n` of a natural number
(`m / 2^(8*i) % 256` at position `i`). -/
def leBytesNat (n : Nat) (m : Nat) : List Nat :=
  (List.range n).map (fun i => m / 2 ^ (8 * i) % 256)

/-- Two's-complement wrap of an integer into `[0, 2^(8*n))`, as performed by
`iN::to_le_bytes` / `iN::from_le_bytes` in Rust. -/
def intWrap (n : Nat) (v : Int) : Nat :=
  (v % (2 ^ (8 * n) : Int)).toNat

/-- Little-endian encoding of an integer on `n` bytes (two's complement). -/
def intLeBytes (v : Int) (n : Nat) : List Nat :=
  leBytesNat n (intWrap n v)

/-- Natural number denoted by a little-endian byte list. -/
def natFromLeBytes : List Nat → Nat
  | [] => 0
  | b :: rest => b + 256 * natFromLeBytes rest

/-- Signed value of `size` little-endian bytes (two's complement), as decoded
by `i8/i16/i32/i64/i128::from_le_bytes` in `SearchValue::matched`. -/
def signedFromLeBytes (size : Nat) (bytes : List Nat) : Int :=
  let m := natFromLeBytes (bytes.take size)
  if m < 2 ^ (8 * size - 1) then (m : Int) else (m : Int) - 2 ^ (8 * size)

/-- `SearchValue` from `search/types.rs`.  `FixedInt` stores the 16
little-endian bytes of the `i128` literal; the float variants store the IEEE
bit patterns of the `f64` fields (their numeric comparison is delegated to a
`FloatOracle`).  The source field `end` is spelled `stop`. -/
inductive SearchValue where
  | fixedInt (value : List Nat) (value_type : ValueType)
  | fixedFloat (value : Nat) (value_type : ValueType)
  | rangeInt (start : Int) (stop : Int) (value_type : ValueType) (exclude : Bool)
  | rangeFloat (start : Nat) (stop : Nat) (value_type : ValueType) (exclude : Bool)
deriving DecidableEq, Repr

/-- `SearchValue::fixed` from `search/types.rs`: stores
`i128::to_le_bytes(value)`. -/
def SearchValue.fixed (value : Int) (value_type : ValueType) : SearchValue :=
  SearchValue.fixedInt (intLeBytes value 16) value_type

/-- `SearchValue::value_type` from `search/types.rs`. -/
def SearchValue.valueType : SearchValue → ValueType
  | .fixedInt _ t => t
  | .fixedFloat _ t => t
  | .rangeInt _ _ t _ => t
  | .rangeFloat _ _ t _ => t

/-- `SearchValue::is_fixed_int` from `search/types.rs`. -/
def SearchValue.is_fixed_int : SearchValue → Bool
  | .fixedInt _ _ => true
  | _ => false

/-- `SearchValue::bytes` from `search/types.rs`: the first `size` stored bytes
of a `FixedInt`, an error for every other variant. -/
def SearchValue.bytes : SearchValue → Except String (List Nat)
  | .fixedInt value t => .ok (value.take t.size)
  | v => .error (toString (repr v))

/-- Oracle standing for the IEEE-754 comparisons inside `SearchValue::matched`
(`FixedFloat` epsilon equality and `RangeFloat` interval tests on decoded
`f32`/`f64` memory bytes).  The claims settled in this file hold for every
oracle. -/
structure FloatOracle where
  fixedFloatMatched : Nat → ValueType → List Nat → Bool
  rangeFloatMatched : Nat → Nat → ValueType → Bool → List Nat → Bool

/-- `SearchValue::matched` from `search/types.rs`.  Integer branches are
embedded exactly; float branches defer to the `FloatOracle` after the same
length/size validity checks as the source. -/
def SearchValue.matched (fo : FloatOracle) : SearchValue → List Nat → Except String Bool
  | .fixedInt value t, other =>
    let size := t.size
    if other.length < size then .error "Input slice too small"
    else .ok (value.take size == other.take size)
  | .fixedFloat value t, other =>
    let size := t.size
    if other.length < size then .error "Input slice too small"
    else if size = 4 ∨ size = 8 then .ok (fo.fixedFloatMatched value t other)
    else .error "Invalid float size"
  | .rangeInt start stop t exclude, other =>
    let size := t.size
    if other.length < size then .error "Input slice too small"
    else if size = 1 ∨ size = 2 ∨ size = 4 ∨ size = 8 ∨ size = 16 then
      let ov := signedFromLeBytes size other
      if exclude then .ok (decide (ov < start ∨ ov > stop))
      else .ok (decide (ov ≥ start ∧ ov ≤ stop))
    else .error "Invalid integer size"
  | .rangeFloat start stop t exclude, other =>
    let size := t.size
    if other.length < size then .error "Input slice too small"
    else if size = 4 ∨ size = 8 then .ok (fo.rangeFloatMatched start stop t exclude other)
    else .error "Invalid float size"

/-- `SearchMode` from `search/types.rs`. -/
inductive SearchMode where
  | unordered
  | ordered
deriving DecidableEq, Repr

/-- `SearchQuery` from `search/types.rs` (`range` is a `u16`). -/
structure SearchQuery where
  values : List SearchValue
  mode : SearchMode
  range : Nat

/-- `SearchQuery::validate` from `search/types.rs`. -/
def SearchQuery.validate (q : SearchQuery) : Except String Unit :=
  if q.values.isEmpty then .error "No values specified"
  else if q.values.length > 64 then .error "Maximum 64 values allowed"
  else if q.values.length ≥ 2 ∧ q.range < 2 then
    .error "Range must be at least 2 for group search"
  else .ok ()

/-! ## Pattern literal parser (`search/pattern.rs`)

Strings are embedded as `List Char`.  Rust's `str::len` counts UTF-8 bytes
while `chars()` yields characters, so token byte length and token character
count are tracked separately, exactly as the source mixes them.  A result of
`none` marks the `chars[1]` index panic that the source hits on a token whose
byte length is 2 but which holds a single (two-byte) character. -/

/-- Rust `char::is_whitespace` (the Unicode `White_Space` property). -/
def rustIsWhitespace (c : Char) : Bool :=
  c.toNat ∈ [0x09, 0x0A, 0x0B, 0x0C, 0x0D, 0x20, 0x85, 0xA0, 0x1680,
    0x2000, 0x2001, 0x2002, 0x2003, 0x2004, 0x2005, 0x2006, 0x2007,
    0x2008, 0x2009, 0x200A, 0x2028, 0x2029, 0x202F, 0x205F, 0x3000]

/-- Rust `str::trim`: strip leading and trailing whitespace characters. -/
def trimChars (l : List Char) : List Char :=
  ((l.dropWhile rustIsWhitespace).reverse.dropWhile rustIsWhitespace).reverse

/-- Helper for `splitWsChars`: `acc` holds the current word, reversed. -/
def splitWsGo : List Char → List Char → List (List Char)
  | [], acc => if acc.isEmpty then [] else [acc.reverse]
  | c :: rest, acc =>
    if rustIsWhitespace c then
      if acc.isEmpty then splitWsGo rest [] else acc.reverse :: splitWsGo rest []
    else splitWsGo rest (c :: acc)

/-- Rust `str::split_whitespace`: maximal runs of non-whitespace characters. -/
def splitWsChars (l : List Char) : List (List Char) :=
  splitWsGo l []

/-- UTF-8 byte length of a token, Rust's `str::len`. -/
def utf8Len (t : List Char) : Nat :=
  (t.map Char.utf8Size).sum

/-- `parse_nibble` from `search/pattern.rs`. -/
def parse_nibble (c : Char) : Except String (Nat × Nat) :=
  if c = '?' then .ok (0, 0)
  else if '0' ≤ c ∧ c ≤ '9' then .ok (c.toNat - '0'.toNat, 0xF)
  else if 'A' ≤ c ∧ c ≤ 'F' then .ok (c.toNat - 'A'.toNat + 10, 0xF)
  else if 'a' ≤ c ∧ c ≤ 'f' then .ok (c.toNat - 'a'.toNat + 10, 0xF)
  else .error "Invalid hex character"

/-- `parse_byte` from `search/pattern.rs`. -/
def parse_byte (high low : Char) : Except String (Nat × Nat) :=
  match parse_nibble high, parse_nibble low with
  | .ok (hv, hm), .ok (lv, lm) => .ok (hv * 16 + lv, hm * 16 + lm)
  | .error e, _ => .error e
  | _, .error e => .error e

/-- The token loop of `parse_pattern`.  `none` = index panic (`chars[1]` on a
token whose UTF-8 length is 2 but which is a single character). -/
def parseTokens : List (List Char) → Option (Except String (List (Nat × Nat)))
  | [] => some (.ok [])
  | t :: rest =>
    if utf8Len t ≠ 2 then some (.error "Invalid byte: expected 2 characters")
    else
      match t with
      | [c1, c2] =>
        match parse_byte c1 c2 with
        | .error e => some (.error e)
        | .ok vm => (parseTokens rest).map (fun r => r.map (fun l => vm :: l))
      | _ => none

/-- `parse_pattern` from `search/pattern.rs`.  `none` = panic (see
`parseTokens`); `some` carries the source's `Result`. -/
def parse_pattern (input : List Char) : Option (Except String (List (Nat × Nat))) :=
  let trimmed := trimChars input
  if trimmed.isEmpty then some (.error "Empty pattern")
  else
    match parseTokens (splitWsChars trimmed) with
    | none => none
    | some (.error e) => some (.error e)
    | some (.ok l) =>
      if l.isEmpty then some (.error "Empty pattern after parsing")
      else some (.ok l)

/-- A well-formed claim token: exactly two characters, each a hex digit or
`'?'` (the grammar of spec §6). -/
def hexOrWild (c : Char) : Bool :=
  c = '?' ∨ ('0' ≤ c ∧ c ≤ '9') ∨ ('A' ≤ c ∧ c ≤ 'F') ∨ ('a' ≤ c ∧ c ≤ 'f')

/-- Numeric value of a hex digit (unspecified on other characters). -/
def hexVal (c : Char) : Nat :=
  if '0' ≤ c ∧ c ≤ '9' then c.toNat - '0'.toNat
  else if 'A' ≤ c ∧ c ≤ 'F' then c.toNat - 'A'.toNat + 10
  else c.toNat - 'a'.toNat + 10

/-- The `(value, mask)` byte a token denotes according to the claim:
`?? → (0,0)`, `h? → (h<<4, 0xF0)`, `?h → (h, 0x0F)`, `hh → (byte, 0xFF)`. -/
def claimTokenByte (t : List Char) : Nat × Nat :=
  match t with
  | [c1, c2] =>
    if c1 = '?' ∧ c2 = '?' then (0, 0)
    else if c2 = '?' then (hexVal c1 * 16, 0xF0)
    else if c1 = '?' then (hexVal c2, 0x0F)
    else (hexVal c1 * 16 + hexVal c2, 0xFF)
  | _ => (0, 0)

/-- Token validity per the claim's grammar. -/
def claimValidToken (t : List Char) : Bool :=
  t.length = 2 ∧ t.all hexOrWild

/-! ## Result commit of a value search (`search/engine/manager.rs`)

`run_search_task` merges the per-region result vectors, then runs
`all_results.sort_unstable_by(|a, b| a.addr.cmp(&b.addr)); all_results.dedup();`
before committing to the result store.  `sort_unstable_by` may produce any
permutation that is sorted under the comparator (it is not stable), and
`Vec::dedup` drops an element exactly when it equals (full `PartialEq`,
address *and* type) its immediate predecessor.  The commit is therefore
embedded as a relation: `output` is a possible commit of `input` iff it is
`vecDedup` of some address-sorted permutation of `input`. -/

/-- `ValuePair` from `search/engine/manager.rs` (derived `PartialEq` compares
both fields; `Ord` compares `addr` only). -/
structure ValuePair where
  addr : Nat
  value_type : ValueType
deriving DecidableEq, Repr, Inhabited

/-- Tail of `Vec::dedup`: drop elements equal to the last kept one. -/
def vecDedupGo (prev : ValuePair) : List ValuePair → List ValuePair
  | [] => []
  | b :: rest => if prev = b then vecDedupGo prev rest else b :: vecDedupGo b rest

/-- `Vec::dedup`: remove each element equal to its immediate predecessor. -/
def vecDedup : List ValuePair → List ValuePair
  | [] => []
  | a :: rest => a :: vecDedupGo a rest

/-- Sorted under the source comparator `a.addr.cmp(&b.addr)`. -/
def sortedByAddr (l : List ValuePair) : Prop :=
  List.Pairwise (fun a b => a.addr ≤ b.addr) l

/-- The sort-and-dedup commit step of `run_search_task`
(`manager.rs:344-346`), as a relation on account of the unstable sort. -/
def runSearchCommit (input output : List ValuePair) : Prop :=
  ∃ s : List ValuePair, s.Perm input ∧ sortedByAddr s ∧ output = vecDedup s

/-! ## Refine clustering (`search/engine/batch_reader.rs`) -/

/-- `FuzzySearchResultItem` from `search/result_manager/fuzzy.rs` (packed
`{address: u64, value: [u8; 8], value_type}`); its `PartialEq`/`Ord`
implementations compare only `address`. -/
structure FuzzySearchResultItem where
  address : Nat
  value : List Nat
  value_type : ValueType
deriving DecidableEq, Repr, Inhabited

/-- Copy at most 8 bytes into a zero-initialised `[u8; 8]`
(`FuzzySearchResultItem::from_bytes` / `ReadResultItem::new`). -/
def pad8 (bytes : List Nat) : List Nat :=
  bytes.take 8 ++ List.replicate (8 - min bytes.length 8) 0

/-- `FuzzySearchResultItem::from_bytes` from `search/result_manager/fuzzy.rs`. -/
def FuzzySearchResultItem.from_bytes (address : Nat) (bytes : List Nat)
    (value_type : ValueType) : FuzzySearchResultItem :=
  ⟨address, pad8 bytes, value_type⟩

/-- `BATCH_MAX_GAP` from `search/engine/batch_reader.rs` (4 KiB). -/
def BATCH_MAX_GAP : Nat := 4096

/-- `BATCH_MAX_SIZE` from `search/engine/batch_reader.rs` (64 KiB). -/
def BATCH_MAX_SIZE : Nat := 64 * 1024

/-- `BatchItemRef` from `search/engine/batch_reader.rs`. -/
structure BatchItemRef where
  offset : Nat
  item_index : Nat
  value_size : Nat
deriving DecidableEq, Repr

/-- `AddressBatch` from `search/engine/batch_reader.rs`. -/
structure AddressBatch where
  start_addr : Nat
  total_size : Nat
  items : List BatchItemRef
deriving Repr

/-- `AddressBatch::new` from `search/engine/batch_reader.rs`. -/
def AddressBatch.mkNew (start_addr size index : Nat) : AddressBatch :=
  ⟨start_addr, size, [⟨0, index, size⟩]⟩

/-- The loop body of `cluster_addresses`: `idx` is the index of the head of
the remaining item list, `cur` the open batch.  Nat subtraction gives the
source's `saturating_sub` for the gap directly. -/
def clusterGo : List FuzzySearchResultItem → Nat → AddressBatch → List AddressBatch
  | [], _, cur => [cur]
  | item :: rest, idx, cur =>
    let addr := item.address
    let size := item.value_type.size
    let batchEnd := cur.start_addr + cur.total_size
    let gap := addr - batchEnd
    let newTotal := addr + size - cur.start_addr
    if gap ≤ BATCH_MAX_GAP ∧ newTotal ≤ BATCH_MAX_SIZE then
      clusterGo rest (idx + 1)
        ⟨cur.start_addr, newTotal, cur.items ++ [⟨addr - cur.start_addr, idx, size⟩]⟩
    else
      cur :: clusterGo rest (idx + 1) (AddressBatch.mkNew addr size idx)

/-- `cluster_addresses` from `search/engine/batch_reader.rs`. -/
def cluster_addresses : List FuzzySearchResultItem → List AddressBatch
  | [] => []
  | item :: rest => clusterGo rest 1 (AddressBatch.mkNew item.address item.value_type.size 0)

/-- Gap condition between two consecutive member references of one batch:
the next member starts at most `BATCH_MAX_GAP` bytes after the covered end
(`offset + value_size`) of the previous member. -/
def gapOK (r1 r2 : BatchItemRef) : Prop :=
  r2.offset ≤ r1.offset + r1.value_size + BATCH_MAX_GAP

/-! ## Batch read and fuzzy refine (`batch_reader.rs`, `fuzzy_search.rs`)

A kernel read is an oracle `readMem : addr → len → Option (List Nat)`
(`none` = the gateway returned an error).  `ReadResultItem` of the source
packs `(address, value_type, old_value, current_value)`, which is exactly
the original item plus the freshly read bytes; it is embedded as the pair
`(original item, current bytes)`.  Rayon's `take_any_while` cancellation can
drop an arbitrary subset of batches from processing; this nondeterminism is
over-approximated by the `keepBatch` predicate (a run without cancellation
is `fun _ => true`). -/

/-- `bufSlice buffer a b` = Rust `&buffer[a..b]` (truncated at the ends
instead of panicking; all uses below are in bounds or noted). -/
def bufSlice (buffer : List Nat) (a b : Nat) : List Nat :=
  (buffer.drop a).take (b - a)

/-- `parallel_batch_read` from `search/engine/batch_reader.rs`: one read per
batch, slicing each member's bytes out of the batch buffer; on batch-read
failure, fall back to one read per member. -/
def parallel_batch_read (readMem : Nat → Nat → Option (List Nat))
    (keepBatch : Nat → Bool) (batches : List AddressBatch)
    (items : List FuzzySearchResultItem) :
    List (FuzzySearchResultItem × List Nat) :=
  ((batches.enum).filter (fun bi => keepBatch bi.1)).flatMap (fun bi =>
    let batch := bi.2
    match readMem batch.start_addr batch.total_size with
    | some buffer =>
      batch.items.map (fun r =>
        (items.getD r.item_index default, bufSlice buffer r.offset (r.offset + r.value_size)))
    | none =>
      batch.items.filterMap (fun r =>
        let orig := items.getD r.item_index default
        (readMem orig.address r.value_size).map (fun b => (orig, b))))

/-- Insertion into a `BPlusTreeSet<FuzzySearchResultItem>` keyed by the
source's `Ord`/`Eq` (address only): the set is an address-sorted list and an
insert whose address is already present leaves the set unchanged. -/
def bptInsert : List FuzzySearchResultItem → FuzzySearchResultItem → List FuzzySearchResultItem
  | [], x => [x]
  | y :: ys, x =>
    if x.address < y.address then x :: y :: ys
    else if x.address = y.address then y :: ys
    else y :: bptInsert ys x

/-- `fuzzy_refine_search` from `search/engine/fuzzy_search.rs`: cluster the
(address-sorted) items, batch-read their current bytes, filter by the fuzzy
condition and collect the surviving items (rebuilt from the new bytes) into
a `BPlusTreeSet`.  `matchesCond` stands for
`FuzzySearchResultItem::matches_condition` (its integer/float arithmetic is
irrelevant to the claims settled here, which hold for every predicate);
`keepItem` over-approximates the `take_any_while` cancellation of the
filtering stage. -/
def fuzzy_refine_search (readMem : Nat → Nat → Option (List Nat))
    (keepBatch keepItem : Nat → Bool)
    (matchesCond : FuzzySearchResultItem → List Nat → Bool)
    (items : List FuzzySearchResultItem) : List FuzzySearchResultItem :=
  if items.isEmpty then []
  else
    let batches := cluster_addresses items
    let withCurrent := parallel_batch_read readMem keepBatch batches items
    let survivors := ((withCurrent.enum).filter (fun pi => keepItem pi.1)).filterMap
      (fun pi =>
        let old := pi.2.1
        let current := pi.2.2
        if matchesCond old current then
          some (FuzzySearchResultItem.from_bytes old.address current old.value_type)
        else none)
    survivors.foldl bptInsert []

/-! ## Exact refine (`search/engine/single_search.rs`) -/

/-- `refine_single_search_with_cancel` from `search/engine/single_search.rs`.
Every cancellation exit of the source returns an empty vector, so the
cancellation schedule collapses to one boolean.  The progress counters do
not influence the result and are omitted. -/
def refine_single_search (fo : FloatOracle) (readMem : Nat → Nat → Option (List Nat))
    (cancelled : Bool) (addresses : List ValuePair) (target : SearchValue) :
    List ValuePair :=
  if addresses.isEmpty then []
  else if cancelled then []
  else
    let targetType := target.valueType
    let elementSize := targetType.size
    let filtered := addresses.filter (fun p => p.value_type == targetType)
    if filtered.isEmpty then []
    else
      let addressValues := filtered.filterMap (fun p =>
        (readMem p.addr elementSize).map (fun b => (p, b)))
      addressValues.filterMap (fun pb =>
        match SearchValue.matched fo target pb.2 with
        | .ok true => some pb.1
        | _ => none)

/-! ## Memory gateway (`core/driver_manager.rs`) -/

/-- `MemoryAccessMode` from `core/memory_mode.rs` (declared there, consumed
by the gateway). -/
inductive MemoryAccessMode where
  | none
  | nonCacheable
  | writeThrough
  | normal
  | pageFault
deriving DecidableEq, Repr

/-- The fields of `DriverManager` the unified read/write paths consult. -/
structure DriverManagerState where
  hasDriver : Bool
  hasBound : Bool
  bound_pid : Int
  access_mode : MemoryAccessMode

/-- The kernel read request a gateway call issues (which driver entry point,
with which arguments). -/
inductive KernelReadCall where
  | physReadWithStatus (pid : Int) (addr len : Nat)
  | userPagesRead (pid : Int) (addr len : Nat)
  | bindRead (addr len : Nat) (withStatus : Bool)
deriving DecidableEq, Repr

/-- The kernel write request a gateway call issues. -/
inductive KernelWriteCall where
  | physWrite (pid : Int) (addr len : Nat)
  | userPagesWrite (pid : Int) (addr len : Nat)
  | bindWrite (addr len : Nat)
deriving DecidableEq, Repr

/-- Page-status outcome of a unified read: bits filled by the kernel, or all
pages marked successful (`PageFault` path's `mark_all_success`). -/
inductive PageStatusOut where
  | fromKernel (bits : List Bool)
  | allSuccess
deriving DecidableEq, Repr

/-- The MTE-stripping mask `0x0000_FFFF_FFFF_FFFF` of
`read_memory_unified`/`write_memory_unified`. -/
def MTE_MASK : Nat := 0x0000FFFFFFFFFFFF

/-- The MTE tag bits `0xFFFF_0000_0000_0000` named by the claim. -/
def MTE_TAG : Nat := 0xFFFF000000000000

/-- `DriverManager::read_memory_unified` from `core/driver_manager.rs`.  The
kernel is the oracle `kernel`; `wantStatus` says whether the caller passed a
`PageStatusBitmap`.  The source masks the address with `MTE_MASK` before any
kernel call; on the physical path a missing caller bitmap is replaced by a
temporary one that is dropped, on the `PageFault` path the caller bitmap is
set to all-successful, and the bound path forwards the kernel bits. -/
def read_memory_unified (kernel : KernelReadCall → Except String (List Nat × List Bool))
    (st : DriverManagerState) (addr len : Nat) (wantStatus : Bool) :
    Except String (List Nat × Option PageStatusOut) :=
  let maddr := addr &&& MTE_MASK
  match st.access_mode with
  | .none =>
    if st.hasDriver then
      match kernel (.physReadWithStatus st.bound_pid maddr len) with
      | .ok (bytes, bits) =>
        .ok (bytes, if wantStatus then some (.fromKernel bits) else Option.none)
      | .error e => .error e
    else .error "Driver not initialized"
  | .pageFault =>
    if st.hasDriver then
      match kernel (.userPagesRead st.bound_pid maddr len) with
      | .ok (bytes, _) =>
        .ok (bytes, if wantStatus then some .allSuccess else Option.none)
      | .error e => .error e
    else .error "Driver not initialized"
  | _ =>
    if st.hasBound then
      match kernel (.bindRead maddr len wantStatus) with
      | .ok (bytes, bits) =>
        .ok (bytes, if wantStatus then some (.fromKernel bits) else Option.none)
      | .error e => .error e
    else .error "Process not bound"

/-- `DriverManager::write_memory_unified` from `core/driver_manager.rs`. -/
def write_memory_unified (kernel : KernelWriteCall → Except String Unit)
    (st : DriverManagerState) (addr len : Nat) : Except String Unit :=
  let maddr := addr &&& MTE_MASK
  match st.access_mode with
  | .none =>
    if st.hasDriver then kernel (.physWrite st.bound_pid maddr len)
    else .error "Driver not initialized"
  | .pageFault =>
    if st.hasDriver then kernel (.userPagesWrite st.bound_pid maddr len)
    else .error "Driver not initialized"
  | _ =>
    if st.hasBound then kernel (.bindWrite maddr len)
    else .error "Process not bound"

/-! ## Pointer-chain counting (`pointer_scan/chain_builder/bfs_v3.rs`)

`build_pointer_dirs_tree` builds, level by level, the prefix-sum arrays
`counts[L]` over `contents[L-1]` (which collects `dirs[L-1]` in order).  The
source accumulates with `usize::saturating_add`/`saturating_sub`; on `Nat`,
`saturating_sub` is plain subtraction and `saturating_add` clamps at
`usize::MAX`. -/

/-- `usize::MAX` on a 64-bit target. -/
def USIZE_MAX : Nat := 2 ^ 64 - 1

/-- `usize::saturating_add`. -/
def satAdd (a b : Nat) : Nat := min (a + b) USIZE_MAX

/-- `PointerDir` from `pointer_scan/types.rs`; the source field `end` is
spelled `stop`.  `PointerDir::new` fixes `start = 0, end = 1`, so every node
that never went through `create_assoc_dir_index` (in particular every
level-0 node) carries the range `[0, 1)`. -/
structure PointerDir where
  address : Nat
  value : Nat
  start : Nat
  stop : Nat
deriving DecidableEq, Repr

instance : Inhabited PointerDir := ⟨⟨0, 0, 0, 1⟩⟩

/-- The inner loop of `build_pointer_dirs_tree` for one level: walking
`contents[level-1]` (= `dirs[level-1]`), emit the running saturated sum of
`prev_count_data[dir.end] - prev_count_data[dir.start]`. -/
def countsAux (prev : List Nat) (cum : Nat) : List PointerDir → List Nat
  | [] => []
  | d :: rest =>
    let cum' := satAdd cum (prev.getD d.stop 0 - prev.getD d.start 0)
    cum' :: countsAux prev cum' rest

/-- `counts[L]` of `build_pointer_dirs_tree`: `counts[0] = [0, 1]`, and
`counts[L]` for `L ≥ 1` prefix-sums over `dirs[L-1]` with a leading 0. -/
def buildCounts (dirs : List (List PointerDir)) : Nat → List Nat
  | 0 => [0, 1]
  | L + 1 => 0 :: countsAux (buildCounts dirs L) 0 (dirs.getD L [])

/-- Number of distinct level-0 leaf paths reachable from a node at level `L`
by following the child index ranges `[start, stop)` down `L` levels. -/
def pathsCount (dirs : List (List PointerDir)) : Nat → PointerDir → Nat
  | 0, _ => 1
  | L + 1, d => ∑ j ∈ Finset.Ico d.start d.stop, pathsCount dirs L ((dirs.getD L []).getD j default)

/-- Well-formedness of a BFS node at level `L`, as established by the BFS:
level-0 nodes carry `[0, 1)` (`PointerDir::new`); at level `L ≥ 1` the range
is a pair of `partition_point` indices into `dirs[L-1]`
(`create_assoc_dir_index` / `create_assoc_range_index`). -/
def dirWF (dirs : List (List PointerDir)) : Nat → PointerDir → Prop
  | 0, d => d.start = 0 ∧ d.stop = 1
  | L + 1, d => d.start ≤ d.stop ∧ d.stop ≤ (dirs.getD L []).length

/-- Hypotheses needed to evaluate `buildCounts` up to level `L`: every node
of every lower level is well-formed, and the total number of leaf paths of
each lower level fits in a `usize` (so `saturating_add` never clamps). -/
def chainWF (dirs : List (List PointerDir)) (L : Nat) : Prop :=
  ∀ l < L, (∀ d ∈ dirs.getD l [], dirWF dirs l d) ∧
    (((dirs.getD l []).map (pathsCount dirs l)).sum ≤ USIZE_MAX)

/-! ## Single-value chunk matcher (`search/engine/single_search.rs`)

`search_in_chunks_with_status` with its three scan paths (vectorised 1-byte,
vectorised multi-byte anchor, generic stepping loop).  The page size is the
standard 4 KiB (`sysconf(_SC_PAGE_SIZE)` with default 4096); the 64 KiB
rayon grain is `PAR_SCAN_GRAIN`.  The page-status bitmap is a `List Bool`
(`is_page_success` is false past the end, as in the source).  Rayon's
indexed `map`+`reduce` concatenates grain results in input order, so the
embedding is the sequential concatenation. -/

/-- Page size: 4096 bytes. -/
def PAGE_SIZE : Nat := 4096

/-- `PAR_SCAN_GRAIN` from `search/engine/single_search.rs` (64 KiB). -/
def PAR_SCAN_GRAIN : Nat := 64 * 1024

/-- `MEMCHR_FIND_ANCHOR` from `search/engine/single_search.rs`. -/
def MEMCHR_FIND_ANCHOR : Bool := true

/-- `PageStatusBitmap::is_page_success`. -/
def pageIsSuccess (ps : List Bool) (i : Nat) : Bool := ps.getD i false

/-- `first_aligned_pos` from `search/engine/single_search.rs`. -/
def first_aligned_pos (base_addr start_pos align : Nat) : Nat :=
  let rem := (base_addr + start_pos) % align
  if rem = 0 then start_pos else start_pos + (align - rem)

/-- `memchr_iter needle slice`: the offsets of `needle` in `slice`, in
increasing order. -/
def memchrIter (needle : Nat) (s : List Nat) : List Nat :=
  (List.range s.length).filter (fun i => s.getD i 0 == needle)

/-- `(rs..re).step_by(PAR_SCAN_GRAIN)` mapped to `(s, min (s+GRAIN) re)`. -/
def grainRanges (rs re : Nat) : List (Nat × Nat) :=
  (List.range' rs ((re - rs + PAR_SCAN_GRAIN - 1) / PAR_SCAN_GRAIN) PAR_SCAN_GRAIN).map
    (fun s => (s, min (s + PAR_SCAN_GRAIN) re))

/-- The page indices `(rs / PAGE_SIZE) .. ceil(re / PAGE_SIZE)` walked by the
vectorised paths. -/
def pageIdxRange (rs re : Nat) : List Nat :=
  List.range' (rs / PAGE_SIZE) ((re + PAGE_SIZE - 1) / PAGE_SIZE - rs / PAGE_SIZE)

/-- The single-byte fast path of `search_in_chunks_with_status` for one
grain: per successful page, `memchr` the byte and keep the in-range hits. -/
def byteScanGrain (buffer : List Nat) (ps : List Bool) (tb : Nat)
    (buffer_addr search_start search_end rs re : Nat) : List Nat :=
  (pageIdxRange rs re).flatMap (fun page_idx =>
    if ¬ pageIsSuccess ps page_idx then []
    else
      let page_start := max (page_idx * PAGE_SIZE) rs
      let page_end := min ((page_idx + 1) * PAGE_SIZE) re
      (memchrIter tb (bufSlice buffer page_start page_end)).filterMap (fun offset =>
        let addr := buffer_addr + page_start + offset
        if search_start ≤ addr ∧ addr < search_end then some addr else none))

/-- The anchor-offset loop of the multi-byte `memchr` path: `break` when the
element no longer fits before `page_end`, skip misaligned / out-of-range /
mismatching candidates. -/
def anchorOffsets (buffer : List Nat) (bytes : List Nat)
    (buffer_addr search_start search_end element_size page_start page_end : Nat) :
    List Nat → List Nat
  | [] => []
  | offset :: rest =>
    let actual_pos := page_start + offset
    if actual_pos + element_size > page_end then []
    else
      let addr := buffer_addr + actual_pos
      if addr &&& (element_size - 1) ≠ 0 then
        anchorOffsets buffer bytes buffer_addr search_start search_end element_size
          page_start page_end rest
      else if addr < search_start ∨ search_end ≤ addr then
        anchorOffsets buffer bytes buffer_addr search_start search_end element_size
          page_start page_end rest
      else if bufSlice buffer actual_pos (actual_pos + element_size) == bytes then
        addr :: anchorOffsets buffer bytes buffer_addr search_start search_end element_size
          page_start page_end rest
      else
        anchorOffsets buffer bytes buffer_addr search_start search_end element_size
          page_start page_end rest

/-- The multi-byte `memchr` fast path of `search_in_chunks_with_status` for
one grain. -/
def memchrScanGrain (buffer : List Nat) (ps : List Bool) (bytes : List Nat)
    (buffer_addr search_start search_end element_size rs re : Nat) : List Nat :=
  (pageIdxRange rs re).flatMap (fun page_idx =>
    if ¬ pageIsSuccess ps page_idx then []
    else
      let page_start := max (page_idx * PAGE_SIZE) rs
      let page_end := min ((page_idx + 1) * PAGE_SIZE) re
      if page_start ≥ page_end then []
      else
        anchorOffsets buffer bytes buffer_addr search_start search_end element_size
          page_start page_end (memchrIter (bytes.getD 0 0) (bufSlice buffer page_start page_end)))

/-- One step of the generic stepping loop (`while pos < re`) of
`search_in_chunks_with_status`.  The page-status check fires only once `pos`
has reached `current_page_end`, which is initialised to the end of the first
page of the grain — the first page of a grain is never checked (see the
claim-C1 theorem).  `fuel` bounds the iteration count (the loop advances
`pos` by at least one byte per iteration whenever `element_size ≥ 1`, so
`re + 1` fuel suffices). -/
def slowLoop (fo : FloatOracle) (target : SearchValue) (fast_int : Bool)
    (buffer : List Nat) (ps : List Bool) (buffer_addr element_size re : Nat) :
    Nat → Nat → Nat → List Nat
  | 0, _, _ => []
  | fuel + 1, pos, cpe =>
    if pos ≥ re then []
    else if pos + element_size > re then []
    else if pos ≥ cpe ∧ ¬ pageIsSuccess ps (pos / PAGE_SIZE) then
      let next_page := (pos / PAGE_SIZE + 1) * PAGE_SIZE
      let pos' := first_aligned_pos buffer_addr next_page element_size
      slowLoop fo target fast_int buffer ps buffer_addr element_size re fuel pos'
        (min ((pos' / PAGE_SIZE + 1) * PAGE_SIZE) re)
    else
      let other := bufSlice buffer pos (pos + element_size)
      let ok :=
        if fast_int then
          match target.bytes with
          | .ok bytes => other == bytes
          | .error _ => false
        else
          match SearchValue.matched fo target other with
          | .ok b => b
          | .error _ => false
      let rest := slowLoop fo target fast_int buffer ps buffer_addr element_size re fuel
        (pos + element_size) cpe
      if ok then (buffer_addr + pos) :: rest else rest

/-- The generic stepping path of `search_in_chunks_with_status` for one
grain: align the start position to the element size (by absolute address)
and run the stepping loop. -/
def slowScanGrain (fo : FloatOracle) (target : SearchValue) (fast_int : Bool)
    (buffer : List Nat) (ps : List Bool) (buffer_addr element_size rs re : Nat) : List Nat :=
  let pos := first_aligned_pos buffer_addr rs element_size
  let cpe := min ((pos / PAGE_SIZE + 1) * PAGE_SIZE) re
  slowLoop fo target fast_int buffer ps buffer_addr element_size re (re + 1) pos cpe

/-- `search_in_chunks_with_status` from `search/engine/single_search.rs`.
Returns the `ValuePair`s pushed into `results` (the source appends them to a
caller-supplied vector). -/
def search_in_chunks_with_status (fo : FloatOracle) (buffer : List Nat)
    (buffer_addr region_start region_end element_size : Nat) (target : SearchValue)
    (value_type : ValueType) (ps : List Bool) : List ValuePair :=
  let buffer_end := buffer_addr + buffer.length
  let search_start := max buffer_addr region_start
  let search_end := min buffer_end region_end
  if search_start ≥ search_end then []
  else
    let scan_start_pos := search_start - buffer_addr
    let scan_end_pos := search_end - buffer_addr
    let ranges := grainRanges scan_start_pos scan_end_pos
    let bytesOpt := target.bytes
    let fast_int := target.is_fixed_int &&
      (match bytesOpt with | .ok b => !b.isEmpty | .error _ => false)
    let use_memchr_for_multibyte :=
      if MEMCHR_FIND_ANCHOR ∧ fast_int then
        match bytesOpt with
        | .ok bytes =>
          decide (bytes.length > 1) && decide (bytes.length ≤ 8) &&
            (bytes.getD 0 0 != 0x00) && (bytes.getD 0 0 != 0xFF) && (bytes.getD 0 0 != 0xFE)
        | .error _ => false
      else false
    let hits := ranges.flatMap (fun r =>
      let rs := r.1
      let re := r.2
      if fast_int && (match bytesOpt with | .ok b => b.length == 1 | .error _ => false) then
        match bytesOpt with
        | .ok bytes =>
          byteScanGrain buffer ps (bytes.getD 0 0) buffer_addr search_start search_end rs re
        | .error _ => []
      else if MEMCHR_FIND_ANCHOR && use_memchr_for_multibyte then
        match bytesOpt with
        | .ok bytes =>
          memchrScanGrain buffer ps bytes buffer_addr search_start search_end element_size rs re
        | .error _ => []
      else
        slowScanGrain fo target fast_int buffer ps buffer_addr element_size rs re)
    hits.map (fun addr => ⟨addr, value_type⟩)

/-- A concrete `FloatOracle` used by witnesses and counterexamples. -/
def trivialFloatOracle : FloatOracle :=
  ⟨fun _ _ _ => false, fun _ _ _ _ _ => false⟩

/-! ## Helper lemmas -/

/-- Or-ing tag bits above bit 47 does not change the low 48 bits kept by the
MTE mask. -/
theorem mteMask_or_tag (a : Nat) : (a ||| MTE_TAG) &&& MTE_MASK = a &&& MTE_MASK := by
  have h0 : (MTE_TAG &&& MTE_MASK : Nat) = 0 := by decide
  apply Nat.eq_of_testBit_eq
  intro i
  have hb : (Nat.testBit MTE_TAG i && Nat.testBit MTE_MASK i) = false := by
    rw [← Nat.testBit_and, h0, Nat.zero_testBit]
  rw [Nat.testBit_and, Nat.testBit_and, Nat.testBit_or, Bool.and_comm, Bool.and_or_distrib_left]
  rw [Bool.and_comm (Nat.testBit MTE_MASK i) (Nat.testBit MTE_TAG i)] at *
  rw [hb, Bool.or_false, Bool.and_comm]

/-! ## Claim C7 — query validation boundaries -/

/-- C7: `SearchQuery::validate` returns an error exactly when the values
list is empty, or has more than 64 entries, or has at least 2 entries while
`range < 2`; every other `SearchQuery` validates `Ok`. -/
theorem C7_validate_error_boundaries (q : SearchQuery) :
    (∃ e, q.validate = .error e) ↔
      (q.values = [] ∨ q.values.length > 64 ∨ (2 ≤ q.values.length ∧ q.range < 2)) := by
  unfold SearchQuery.validate
  split_ifs with h1 h2 h3 <;> simp_all [List.isEmpty_iff]

/-! ## Claim C6 — MTE-tag insensitivity of the gateway -/

/-- C6: for every kernel oracle, gateway state, address, length and
page-status request, `read_memory_unified` and `write_memory_unified`
behave identically on `addr` and on `addr ||| 0xFFFF_0000_0000_0000`: the
address is masked with `0x0000_FFFF_FFFF_FFFF` before any kernel call, so
the two runs issue the same kernel request and produce the same result. -/
theorem C6_mte_tag_insensitive
    (kernelR : KernelReadCall → Except String (List Nat × List Bool))
    (kernelW : KernelWriteCall → Except String Unit)
    (st : DriverManagerState) (addr len : Nat) (wantStatus : Bool) :
    read_memory_unified kernelR st (addr ||| MTE_TAG) len wantStatus =
        read_memory_unified kernelR st addr len wantStatus ∧
      write_memory_unified kernelW st (addr ||| MTE_TAG) len =
        write_memory_unified kernelW st addr len := by
  constructor
  · unfold read_memory_unified
    rw [mteMask_or_tag]
  · unfold write_memory_unified
    rw [mteMask_or_tag]

/-! ## Claim C2 — ordering and dedup of the committed search results -/

/-- C2 (code bug): the commit step of `run_search_task` sorts by address
only and then runs `Vec::dedup`, which removes only *consecutive* equal
records.  Three per-region records `(0x1000, Dword), (0x1000, Qword),
(0x1000, Dword)` are already address-sorted, so the commit may return them
unchanged — keeping two records with the identical `(address, type)` pair,
against the claimed dedup invariant. -/
theorem C2_commit_keeps_duplicate_pair :
    runSearchCommit
        [⟨4096, .dword⟩, ⟨4096, .qword⟩, ⟨4096, .dword⟩]
        [⟨4096, .dword⟩, ⟨4096, .qword⟩, ⟨4096, .dword⟩] ∧
      List.count (⟨4096, .dword⟩ : ValuePair)
        [⟨4096, .dword⟩, ⟨4096, .qword⟩, ⟨4096, .dword⟩] = 2 := by
  refine ⟨⟨[⟨4096, .dword⟩, ⟨4096, .qword⟩, ⟨4096, .dword⟩], List.Perm.refl _, ?_, ?_⟩, ?_⟩
  · unfold sortedByAddr
    decide
  · decide
  · decide

/-! ## Claim C1 — bitmap fidelity of the per-chunk matchers -/

set_option maxHeartbeats 1000000 in
/-- C1 (code bug): the generic stepping path of
`search_in_chunks_with_status` initialises `current_page_end` to the end of
the first page of the grain and consults the page-status bitmap only once
`pos` has crossed it, so the first page of every 64 KiB grain is scanned
even when its bitmap bit is clear.  Concretely: for any two-page chunk at
`0x1000` beginning with four zero bytes, a failed first page
(`bitmap = [0, 1]`) and a 4-byte zero search (first byte `0x00`, hence the
generic path), the matcher emits the match at address `0x1000`, which lies
inside the failed page — against the claimed bitmap fidelity. -/
theorem C1_emits_match_in_failed_page (buffer : List Nat)
    (hlen : buffer.length = 4104) (hhead : buffer.take 4 = [0, 0, 0, 0]) :
    pageIsSuccess [false, true] 0 = false ∧
      (search_in_chunks_with_status trivialFloatOracle buffer 4096 4096 8200 4
          (SearchValue.fixed 0 .dword) .dword [false, true]).head? = some ⟨4096, .dword⟩ := by
  constructor
  · rfl
  · unfold search_in_chunks_with_status
    rw [hlen]
    norm_num
    have hb : (SearchValue.fixed 0 ValueType.dword).bytes = .ok [0, 0, 0, 0] := by
      simp [SearchValue.fixed, SearchValue.bytes, intLeBytes, leBytesNat, intWrap, ValueType.size]
    have hg : grainRanges 0 4104 = [(0, 4104)] := by decide
    rw [hg]
    simp only [hb, List.flatMap_cons, List.flatMap_nil, List.append_nil]
    have hfi : (SearchValue.fixed 0 ValueType.dword).is_fixed_int = true := rfl
    simp only [hfi, MEMCHR_FIND_ANCHOR, List.isEmpty_cons, Bool.not_false, Bool.and_true,
      and_true, true_and, List.length_cons, List.length_nil, List.getD]
    rw [if_neg (by decide), if_neg (by decide)]
    unfold slowScanGrain
    simp only []
    rw [show first_aligned_pos 4096 0 4 = 0 from by decide]
    rw [show ((0 : Nat) / PAGE_SIZE + 1) * PAGE_SIZE ⊓ 4104 = 4096 from by decide]
    rw [slowLoop]
    rw [if_neg (by decide), if_neg (by decide),
      if_neg (fun h => absurd h.1 (by decide))]
    simp only [bufSlice, List.drop_zero, hb]
    rw [show (0 + 4 - 0 : Nat) = 4 from rfl, hhead]
    simp

/-- Witness for `C1_emits_match_in_failed_page` at the all-zero buffer. -/
theorem C1_emits_match_in_failed_page_witness :
    (List.replicate 4104 (0 : Nat)).length = 4104 ∧
      (List.replicate 4104 (0 : Nat)).take 4 = [0, 0, 0, 0] ∧
      (pageIsSuccess [false, true] 0 = false ∧
        (search_in_chunks_with_status trivialFloatOracle (List.replicate 4104 0) 4096 4096 8200 4
            (SearchValue.fixed 0 .dword) .dword [false, true]).head? = some ⟨4096, .dword⟩) :=
  ⟨by rw [List.length_replicate], by rfl,
    C1_emits_match_in_failed_page (List.replicate 4104 0) (by rw [List.length_replicate]) (by rfl)⟩

/-! ## Claim C5 — refine clustering bounds -/

/-- Every `ValueType` is at most 8 bytes wide. -/
theorem vt_size_le_eight (t : ValueType) : t.size ≤ 8 := by
  cases t <;> simp [ValueType.size]

/-- `clusterGo` assigns the indices `idx, idx+1, …` to the remaining items,
appended after the indices already in the open batch. -/
theorem clusterGo_indices (rest : List FuzzySearchResultItem) :
    ∀ (idx : Nat) (cur : AddressBatch),
      (clusterGo rest idx cur).flatMap (fun b => b.items.map (·.item_index)) =
        cur.items.map (·.item_index) ++ List.range' idx rest.length := by
  induction rest with
  | nil =>
    intro idx cur
    simp [clusterGo]
  | cons item rest ih =>
    intro idx cur
    simp only [clusterGo]
    split_ifs with h
    · rw [ih]
      simp [List.range'_succ, List.range'_succ idx rest.length 1]
    · simp only [List.flatMap_cons, ih, AddressBatch.mkNew]
      simp [List.range'_succ idx rest.length 1]

/-- Invariant propagation of `clusterGo`: starting from an open batch whose
member references satisfy the span bound, the gap chain, and whose
`total_size` is the covered end of its last member, every emitted batch
satisfies the claimed bounds. -/
theorem clusterGo_bounds (rest : List FuzzySearchResultItem) :
    ∀ (idx : Nat) (cur : AddressBatch),
      List.Pairwise (fun a b => a.address ≤ b.address) rest →
      (∀ x ∈ rest, cur.start_addr ≤ x.address) →
      (∃ r, cur.items.getLast? = some r ∧ cur.total_size = r.offset + r.value_size) →
      (∀ r ∈ cur.items, r.offset + r.value_size ≤ BATCH_MAX_SIZE) →
      List.Chain' gapOK cur.items →
      ∀ b ∈ clusterGo rest idx cur,
        b.total_size ≤ BATCH_MAX_SIZE ∧
          (∀ r ∈ b.items, r.offset + r.value_size ≤ BATCH_MAX_SIZE) ∧
          List.Chain' gapOK b.items := by
  induction rest with
  | nil =>
    intro idx cur _ _ hlast hbound hchain b hb
    simp only [clusterGo, List.mem_singleton] at hb
    subst hb
    obtain ⟨r, hr, htot⟩ := hlast
    refine ⟨?_, hbound, hchain⟩
    rw [htot]
    exact hbound r (List.mem_of_mem_getLast? hr)
  | cons item rest ih =>
    intro idx cur hs hge hlast hbound hchain b hb
    simp only [clusterGo] at hb
    have hstart : cur.start_addr ≤ item.address := hge item (by simp)
    split_ifs at hb with h
    · -- merged: recurse with the extended batch
      obtain ⟨r, hr, htot⟩ := hlast
      refine ih (idx + 1)
        ⟨cur.start_addr, item.address + item.value_type.size - cur.start_addr,
          cur.items ++ [⟨item.address - cur.start_addr, idx, item.value_type.size⟩]⟩
        (List.Pairwise.sublist (List.sublist_cons_self _ _) hs)
        ?_ ?_ ?_ ?_ b hb
      · intro x hx
        exact le_trans hstart ((List.pairwise_cons.mp hs).1 x hx)
      · refine ⟨⟨item.address - cur.start_addr, idx, item.value_type.size⟩, ?_, ?_⟩
        · simp [List.getLast?_append]
        · simp only
          omega
      · intro r' hr'
        rcases List.mem_append.mp hr' with hin | hin
        · exact hbound r' hin
        · simp only [List.mem_singleton] at hin
          subst hin
          simp only
          have h2 := h.2
          unfold BATCH_MAX_SIZE at h2 ⊢
          omega
      · rw [List.chain'_append]
        refine ⟨hchain, List.chain'_singleton _, ?_⟩
        intro x hx y hy
        rw [hr] at hx
        simp only [Option.mem_def, Option.some.injEq, List.head?_cons] at hx hy
        subst hx
        subst hy
        have h1 := h.1
        unfold BATCH_MAX_GAP at h1
        unfold gapOK BATCH_MAX_GAP
        simp only
        omega
    · -- new batch: the closed batch satisfies the bounds, recurse on a fresh one
      rcases List.mem_cons.mp hb with hb | hb
      · subst hb
        obtain ⟨r, hr, htot⟩ := hlast
        refine ⟨?_, hbound, hchain⟩
        rw [htot]
        exact hbound r (List.mem_of_mem_getLast? hr)
      · refine ih (idx + 1) (AddressBatch.mkNew item.address item.value_type.size idx)
          (List.Pairwise.sublist (List.sublist_cons_self _ _) hs)
          ?_ ?_ ?_ ?_ b hb
        · intro x hx
          exact (List.pairwise_cons.mp hs).1 x hx
        · exact ⟨⟨0, idx, item.value_type.size⟩, by simp [AddressBatch.mkNew], by simp [AddressBatch.mkNew]⟩
        · intro r' hr'
          simp only [AddressBatch.mkNew, List.mem_singleton] at hr'
          subst hr'
          have := vt_size_le_eight item.value_type
          show (0 : Nat) + item.value_type.size ≤ BATCH_MAX_SIZE
          unfold BATCH_MAX_SIZE
          omega
        · exact List.chain'_singleton _

/-- C5: for every address-sorted item list, `cluster_addresses` partitions
the items, in order, into batches (the member indices of the batches
concatenate to `0, 1, …, n-1`); a member joins an existing batch only when
the gap from the batch's covered end to its address is at most 4096 bytes
(`gapOK` between consecutive members) and the resulting total read span is
at most 65536 bytes (`offset + value_size` of every member, and the final
`total_size` of every batch, are bounded by `BATCH_MAX_SIZE`). -/
theorem C5_cluster_partition_and_bounds (items : List FuzzySearchResultItem)
    (hs : List.Pairwise (fun a b => a.address ≤ b.address) items) :
    ((cluster_addresses items).flatMap (fun b => b.items.map (·.item_index)) =
        List.range items.length) ∧
      ∀ b ∈ cluster_addresses items,
        b.total_size ≤ BATCH_MAX_SIZE ∧
          (∀ r ∈ b.items, r.offset + r.value_size ≤ BATCH_MAX_SIZE) ∧
          List.Chain' gapOK b.items := by
  cases items with
  | nil => simp [cluster_addresses]
  | cons item rest =>
    constructor
    · unfold cluster_addresses
      rw [clusterGo_indices]
      simp [AddressBatch.mkNew, List.range_eq_range', List.range'_succ 0 rest.length 1]
    · unfold cluster_addresses
      refine clusterGo_bounds rest 1 (AddressBatch.mkNew item.address item.value_type.size 0)
        (List.Pairwise.sublist (List.sublist_cons_self _ _) hs) ?_ ?_ ?_ ?_
      · intro x hx
        exact (List.pairwise_cons.mp hs).1 x hx
      · exact ⟨⟨0, 0, item.value_type.size⟩, by simp [AddressBatch.mkNew], by simp [AddressBatch.mkNew]⟩
      · intro r' hr'
        simp only [AddressBatch.mkNew, List.mem_singleton] at hr'
        subst hr'
        have := vt_size_le_eight item.value_type
        show (0 : Nat) + item.value_type.size ≤ BATCH_MAX_SIZE
        unfold BATCH_MAX_SIZE
        omega
      · exact List.chain'_singleton _

/-- Witness for `C5_cluster_partition_and_bounds` on a sorted two-item
list whose members cluster into one batch. -/
theorem C5_cluster_partition_and_bounds_witness :
    List.Pairwise (fun a b => a.address ≤ b.address)
        [FuzzySearchResultItem.mk 4096 [1, 0, 0, 0, 0, 0, 0, 0] .dword,
         FuzzySearchResultItem.mk 4104 [2, 0, 0, 0, 0, 0, 0, 0] .dword] ∧
      ((cluster_addresses
            [FuzzySearchResultItem.mk 4096 [1, 0, 0, 0, 0, 0, 0, 0] .dword,
             FuzzySearchResultItem.mk 4104 [2, 0, 0, 0, 0, 0, 0, 0] .dword]).flatMap
          (fun b => b.items.map (·.item_index)) = List.range 2) :=
  ⟨by decide,
    (C5_cluster_partition_and_bounds
      [FuzzySearchResultItem.mk 4096 [1, 0, 0, 0, 0, 0, 0, 0] .dword,
       FuzzySearchResultItem.mk 4104 [2, 0, 0, 0, 0, 0, 0, 0] .dword] (by decide)).1⟩

/-! ## Claims C3 and C10 — refine monotonicity and fuzzy dedup -/

/-- Every member reference produced by `clusterGo` indexes either the open
batch's existing references or the remaining items. -/
theorem clusterGo_index_lt (rest : List FuzzySearchResultItem) :
    ∀ (idx : Nat) (cur : AddressBatch) (b : AddressBatch) (r : BatchItemRef),
      b ∈ clusterGo rest idx cur → r ∈ b.items →
      r ∈ cur.items ∨ r.item_index < idx + rest.length := by
  induction rest with
  | nil =>
    intro idx cur b r hb hr
    simp only [clusterGo, List.mem_singleton] at hb
    subst hb
    exact Or.inl hr
  | cons item rest ih =>
    intro idx cur b r hb hr
    simp only [clusterGo] at hb
    split_ifs at hb with h
    · rcases ih (idx + 1) _ b r hb hr with hin | hlt
      · rcases List.mem_append.mp hin with hin | hin
        · exact Or.inl hin
        · simp only [List.mem_singleton] at hin
          subst hin
          right
          simp only [List.length_cons]
          omega
      · right
        simp only [List.length_cons]
        omega
    · rcases List.mem_cons.mp hb with hb | hb
      · subst hb
        exact Or.inl hr
      · rcases ih (idx + 1) _ b r hb hr with hin | hlt
        · simp only [AddressBatch.mkNew, List.mem_singleton] at hin
          subst hin
          right
          simp only [List.length_cons]
          omega
        · right
          simp only [List.length_cons]
          omega

/-- Every member reference of every batch of `cluster_addresses items`
indexes into `items`. -/
theorem cluster_addresses_index_lt (items : List FuzzySearchResultItem)
    (b : AddressBatch) (r : BatchItemRef) (hb : b ∈ cluster_addresses items)
    (hr : r ∈ b.items) : r.item_index < items.length := by
  cases items with
  | nil => simp [cluster_addresses] at hb
  | cons item rest =>
    unfold cluster_addresses at hb
    rcases clusterGo_index_lt rest 1 _ b r hb hr with hin | hlt
    · simp only [AddressBatch.mkNew, List.mem_singleton] at hin
      subst hin
      simp
    · simp only [List.length_cons]
      omega

/-- The first component of every pair produced by `parallel_batch_read` over
the batches of `cluster_addresses items` is one of the `items`. -/
theorem parallel_batch_read_fst_mem (readMem : Nat → Nat → Option (List Nat))
    (keepBatch : Nat → Bool) (items : List FuzzySearchResultItem)
    (p : FuzzySearchResultItem × List Nat)
    (hp : p ∈ parallel_batch_read readMem keepBatch (cluster_addresses items) items) :
    p.1 ∈ items := by
  unfold parallel_batch_read at hp
  rw [List.mem_flatMap] at hp
  obtain ⟨bi, hbi, hmem⟩ := hp
  have hbatch : bi.2 ∈ cluster_addresses items := by
    have h1 : bi ∈ (cluster_addresses items).enum := (List.mem_filter.mp hbi).1
    have h2 := List.mem_enum_iff_get?.mp h1
    exact List.get?_mem h2
  have hgetD : ∀ r ∈ bi.2.items, items.getD r.item_index default ∈ items := by
    intro r hr
    have hlt := cluster_addresses_index_lt items bi.2 r hbatch hr
    rw [List.getD_eq_getElem items default hlt]
    exact List.getElem_mem hlt
  simp only [] at hmem
  rcases hread : readMem bi.2.start_addr bi.2.total_size with _ | buffer
  · rw [hread] at hmem
    rw [List.mem_filterMap] at hmem
    obtain ⟨r, hr, heq⟩ := hmem
    simp only [Option.map_eq_some'] at heq
    obtain ⟨b, hb2, heq⟩ := heq
    rw [← heq]
    exact hgetD r hr
  · rw [hread] at hmem
    rw [List.mem_map] at hmem
    obtain ⟨r, hr, heq⟩ := hmem
    subst heq
    exact hgetD r hr

/-- Membership after a `bptInsert`: the inserted element or an old one. -/
theorem bptInsert_mem (s : List FuzzySearchResultItem) (y x : FuzzySearchResultItem)
    (h : x ∈ bptInsert s y) : x = y ∨ x ∈ s := by
  induction s with
  | nil =>
    simp only [bptInsert, List.mem_singleton] at h
    exact Or.inl h
  | cons z zs ih =>
    simp only [bptInsert] at h
    split_ifs at h with h1 h2
    · rcases List.mem_cons.mp h with h | h
      · exact Or.inl h
      · exact Or.inr h
    · exact Or.inr h
    · rcases List.mem_cons.mp h with h | h
      · exact Or.inr (by simp [h])
      · rcases ih h with h | h
        · exact Or.inl h
        · exact Or.inr (List.mem_cons_of_mem _ h)

/-- Membership in a `bptInsert`-fold: from the seed set or the input list. -/
theorem foldl_bptInsert_mem (l : List FuzzySearchResultItem) :
    ∀ (s : List FuzzySearchResultItem) (x : FuzzySearchResultItem),
      x ∈ l.foldl bptInsert s → x ∈ s ∨ x ∈ l := by
  induction l with
  | nil =>
    intro s x h
    exact Or.inl h
  | cons y ys ih =>
    intro s x h
    rcases ih (bptInsert s y) x h with h | h
    · rcases bptInsert_mem s y x h with h | h
      · exact Or.inr (by simp [h])
      · exact Or.inl h
    · exact Or.inr (List.mem_cons_of_mem _ h)

/-- C3: refine monotonicity.  Every record returned by the exact refine
(`refine_single_search_with_cancel`) is one of the input records, and every
address in the fuzzy refine's output (`fuzzy_refine_search`) is an address
of the input set — for every kernel oracle, cancellation schedule, float
semantics and fuzzy condition. -/
theorem C3_refine_subset :
    (∀ (fo : FloatOracle) (readMem : Nat → Nat → Option (List Nat)) (cancelled : Bool)
        (addresses : List ValuePair) (target : SearchValue) (p : ValuePair),
        p ∈ refine_single_search fo readMem cancelled addresses target → p ∈ addresses) ∧
      (∀ (readMem : Nat → Nat → Option (List Nat)) (keepBatch keepItem : Nat → Bool)
          (matchesCond : FuzzySearchResultItem → List Nat → Bool)
          (items : List FuzzySearchResultItem) (a : Nat),
          a ∈ (fuzzy_refine_search readMem keepBatch keepItem matchesCond items).map
              (fun x => x.address) →
            a ∈ items.map (fun x => x.address)) := by
  constructor
  · intro fo readMem cancelled addresses target p hp
    unfold refine_single_search at hp
    simp only [] at hp
    split_ifs at hp with h1 h2 h3
    · exact absurd hp (List.not_mem_nil p)
    · exact absurd hp (List.not_mem_nil p)
    · exact absurd hp (List.not_mem_nil p)
    · rw [List.mem_filterMap] at hp
      obtain ⟨pb, hpb, hmatch⟩ := hp
      rw [List.mem_filterMap] at hpb
      obtain ⟨q, hq, hmap⟩ := hpb
      have hqmem : q ∈ addresses := (List.mem_filter.mp hq).1
      simp only [Option.map_eq_some'] at hmap
      obtain ⟨b, hb2, hmap⟩ := hmap
      rcases hm : SearchValue.matched fo target pb.2 with e | bv
      · rw [hm] at hmatch
        simp at hmatch
      · rw [hm] at hmatch
        cases bv
        · simp at hmatch
        · simp only [Option.some_inj] at hmatch
          subst hmatch
          rw [← hmap]
          exact hqmem
  · intro readMem keepBatch keepItem matchesCond items a ha
    rw [List.mem_map] at ha
    obtain ⟨x, hx, hax⟩ := ha
    subst hax
    unfold fuzzy_refine_search at hx
    simp only [] at hx
    split_ifs at hx with h1
    · exact absurd hx (List.not_mem_nil x)
    · rcases foldl_bptInsert_mem _ [] x hx with h | h
      · exact absurd h (List.not_mem_nil x)
      · rw [List.mem_filterMap] at h
        obtain ⟨pi, hpi, heq⟩ := h
        have hmem : pi.2 ∈ parallel_batch_read readMem keepBatch (cluster_addresses items) items := by
          have h1 := (List.mem_filter.mp hpi).1
          have h2 := List.mem_enum_iff_get?.mp h1
          exact List.get?_mem h2
        have hold := parallel_batch_read_fst_mem readMem keepBatch items pi.2 hmem
        split_ifs at heq with hcond
        simp only [Option.some_inj] at heq
        subst heq
        exact List.mem_map.mpr ⟨pi.2.1, hold, rfl⟩

set_option maxRecDepth 8000 in
/-- Witness for `C3_refine_subset`: a one-record exact refine that keeps its
record. -/
theorem C3_refine_subset_witness :
    (⟨16, .dword⟩ : ValuePair) ∈
        refine_single_search trivialFloatOracle (fun _ _ => some [7, 0, 0, 0]) false
          [⟨16, .dword⟩] (SearchValue.fixed 7 .dword) ∧
      (⟨16, .dword⟩ : ValuePair) ∈ [(⟨16, .dword⟩ : ValuePair)] :=
  ⟨by decide, C3_refine_subset.1 trivialFloatOracle (fun _ _ => some [7, 0, 0, 0]) false
    [⟨16, .dword⟩] (SearchValue.fixed 7 .dword) ⟨16, .dword⟩ (by decide)⟩

/-- `bptInsert` preserves strict address sortedness. -/
theorem bptInsert_sorted (s : List FuzzySearchResultItem) (x : FuzzySearchResultItem)
    (hs : List.Pairwise (fun a b => a.address < b.address) s) :
    List.Pairwise (fun a b => a.address < b.address) (bptInsert s x) := by
  induction s with
  | nil => simp [bptInsert]
  | cons y ys ih =>
    simp only [bptInsert]
    have hy := (List.pairwise_cons.mp hs).1
    have hys := (List.pairwise_cons.mp hs).2
    split_ifs with h1 h2
    · refine List.pairwise_cons.mpr ⟨?_, hs⟩
      intro z hz
      rcases List.mem_cons.mp hz with hz | hz
      · subst hz
        exact h1
      · exact lt_trans h1 (hy z hz)
    · exact hs
    · refine List.pairwise_cons.mpr ⟨?_, ih hys⟩
      intro z hz
      rcases bptInsert_mem ys x z hz with hz | hz
      · subst hz
        omega
      · exact hy z hz

/-- A `bptInsert`-fold of any list into any sorted set stays sorted. -/
theorem foldl_bptInsert_sorted (l : List FuzzySearchResultItem) :
    ∀ s : List FuzzySearchResultItem,
      List.Pairwise (fun a b => a.address < b.address) s →
      List.Pairwise (fun a b => a.address < b.address) (l.foldl bptInsert s) := by
  induction l with
  | nil => intro s hs; exact hs
  | cons y ys ih => intro s hs; exact ih (bptInsert s y) (bptInsert_sorted s y hs)

/-- C10: fuzzy results are deduplicated by address only.  (a) The set
produced by the fuzzy refine pipeline never holds two records with one
address (whatever their value bytes or types), because
`FuzzySearchResultItem`'s `Eq`/`Ord` compare only `address`; (b) inserting
a record whose address is already present in an address-sorted set leaves
the set unchanged — the later record is silently discarded even when its
stored value bytes or value type differ. -/
theorem C10_fuzzy_dedup_by_address :
    (∀ (readMem : Nat → Nat → Option (List Nat)) (keepBatch keepItem : Nat → Bool)
        (matchesCond : FuzzySearchResultItem → List Nat → Bool)
        (items : List FuzzySearchResultItem),
        List.Pairwise (fun a b => a.address ≠ b.address)
          (fuzzy_refine_search readMem keepBatch keepItem matchesCond items)) ∧
      (∀ (s : List FuzzySearchResultItem) (x : FuzzySearchResultItem),
          List.Pairwise (fun a b => a.address < b.address) s →
          (∃ y ∈ s, y.address = x.address) → bptInsert s x = s) := by
  constructor
  · intro readMem keepBatch keepItem matchesCond items
    unfold fuzzy_refine_search
    split_ifs with h1
    · simp
    · refine List.Pairwise.imp (fun h => ?_) (foldl_bptInsert_sorted _ [] (by simp))
      omega
  · intro s x hs hdup
    induction s with
    | nil => simp at hdup
    | cons y ys ih =>
      obtain ⟨z, hz, hzx⟩ := hdup
      have hy := (List.pairwise_cons.mp hs).1
      have hys := (List.pairwise_cons.mp hs).2
      simp only [bptInsert]
      rcases List.mem_cons.mp hz with hz | hz
      · subst hz
        rw [if_neg (by omega), if_pos (by omega)]
      · have hlt : y.address < x.address := by
          have := hy z hz
          omega
        rw [if_neg (by omega), if_neg (by omega)]
        rw [ih hys ⟨z, hz, hzx⟩]

/-- Witness for `C10_fuzzy_dedup_by_address`: inserting a same-address
record with different bytes and type leaves the set unchanged. -/
theorem C10_fuzzy_dedup_by_address_witness :
    List.Pairwise (fun a b => a.address < b.address)
        [FuzzySearchResultItem.mk 4096 [1, 0, 0, 0, 0, 0, 0, 0] .dword] ∧
      (∃ y ∈ [FuzzySearchResultItem.mk 4096 [1, 0, 0, 0, 0, 0, 0, 0] .dword],
          y.address = (FuzzySearchResultItem.mk 4096 [9, 9, 0, 0, 0, 0, 0, 0] .qword).address) ∧
      bptInsert [FuzzySearchResultItem.mk 4096 [1, 0, 0, 0, 0, 0, 0, 0] .dword]
          (FuzzySearchResultItem.mk 4096 [9, 9, 0, 0, 0, 0, 0, 0] .qword) =
        [FuzzySearchResultItem.mk 4096 [1, 0, 0, 0, 0, 0, 0, 0] .dword] :=
  ⟨by decide, by decide,
    C10_fuzzy_dedup_by_address.2
      [FuzzySearchResultItem.mk 4096 [1, 0, 0, 0, 0, 0, 0, 0] .dword]
      (FuzzySearchResultItem.mk 4096 [9, 9, 0, 0, 0, 0, 0, 0] .qword)
      (by decide) (by decide)⟩

/-! ## Claim C9 — fixed-integer match round trip -/

/-- `toNat` commutes with `% 2^b` on nonnegative integers. -/
theorem toNat_emod_twoPow (a : Int) (b : Nat) (ha : 0 ≤ a) :
    (a % (2 ^ b : Int)).toNat = a.toNat % 2 ^ b := by
  have h1 : ((a % (2 ^ b : Int)).toNat : Int) = a % 2 ^ b :=
    Int.toNat_of_nonneg (Int.emod_nonneg a (by positivity))
  have h2 : ((a.toNat % 2 ^ b : Nat) : Int) = a % 2 ^ b := by
    push_cast
    rw [Int.toNat_of_nonneg ha]
  omega

/-- The low `8*i` bits of a wider two's-complement wrap agree with the
narrower wrap. -/
theorem intWrap_mod (v : Int) (a i : Nat) (h : i ≤ a) :
    intWrap a v % 2 ^ (8 * i) = intWrap i v := by
  unfold intWrap
  have hd : ((2 : Int) ^ (8 * i)) ∣ 2 ^ (8 * a) := pow_dvd_pow 2 (by omega)
  rw [← toNat_emod_twoPow (v % 2 ^ (8 * a)) (8 * i)
    (Int.emod_nonneg v (by positivity))]
  rw [Int.emod_emod_of_dvd v hd]

/-- Byte `i` of a wrap of width `a > i` equals the top byte of the width
`i+1` wrap. -/
theorem intWrap_byte (v : Int) (a i : Nat) (h : i < a) :
    intWrap a v / 2 ^ (8 * i) % 256 = intWrap (i + 1) v / 2 ^ (8 * i) := by
  have h2 : intWrap a v % (2 ^ (8 * i) * 256) / 2 ^ (8 * i) =
      intWrap a v / 2 ^ (8 * i) % 256 := Nat.mod_mul_right_div_self _ _ _
  have h3 : 2 ^ (8 * i) * 256 = 2 ^ (8 * (i + 1)) := by
    rw [show 8 * (i + 1) = 8 * i + 8 from by omega, pow_add]
    norm_num
  rw [← h2, h3, intWrap_mod v a (i + 1) (by omega)]

/-- Widths at least `k` all produce the same first `k` little-endian
bytes. -/
theorem intLeBytes_take (v : Int) (a b k : Nat) (ha : k ≤ a) (hb : k ≤ b) :
    (intLeBytes v a).take k = (intLeBytes v b).take k := by
  unfold intLeBytes leBytesNat
  rw [← List.map_take, ← List.map_take, List.take_range, List.take_range,
    min_eq_left ha, min_eq_left hb]
  refine List.map_congr_left ?_
  intro i hi
  rw [List.mem_range] at hi
  rw [intWrap_byte v a i (by omega), intWrap_byte v b i (by omega)]

/-- C9: for every integer `v`, every integer-typed `ValueType` `t` and every
little-endian encoding of `v` of length at least `t.size`,
`SearchValue::matched` on `SearchValue::fixed(v, t)` returns `Ok(true)`. -/
theorem C9_fixed_int_round_trip (fo : FloatOracle) (v : Int) (t : ValueType) (n : Nat)
    (hfloat : t.is_float_type = false) (hn : t.size ≤ n) :
    SearchValue.matched fo (SearchValue.fixed v t) (intLeBytes v n) = .ok true := by
  have hlen : (intLeBytes v n).length = n := by
    simp [intLeBytes, leBytesNat]
  unfold SearchValue.fixed
  simp only [SearchValue.matched]
  rw [if_neg (by omega)]
  have htake : (intLeBytes v 16).take t.size = (intLeBytes v n).take t.size :=
    intLeBytes_take v 16 n t.size (le_trans (vt_size_le_eight t) (by omega)) hn
  rw [htake]
  simp

/-- Witness for `C9_fixed_int_round_trip` at `v = -7`, `t = Word`,
encoding length 4. -/
theorem C9_fixed_int_round_trip_witness :
    ValueType.word.is_float_type = false ∧ ValueType.word.size ≤ 4 ∧
      SearchValue.matched trivialFloatOracle (SearchValue.fixed (-7) .word)
        (intLeBytes (-7) 4) = .ok true :=
  ⟨rfl, by decide,
    C9_fixed_int_round_trip trivialFloatOracle (-7) .word 4 rfl (by decide)⟩

/-! ## Pattern grammar (`search/pattern.rs`) -/

/-- Characters compare like their scalar values. -/
theorem char_le_iff_toNat (c d : Char) : c ≤ d ↔ c.toNat ≤ d.toNat := by
  rw [Char.le_def, UInt32.le_def]; rfl

/-- Characters with equal scalar values are equal. -/
theorem char_eq_of_toNat_eq {c d : Char} (h : c.toNat = d.toNat) : c = d :=
  Char.ext (UInt32.ext h)

/-- Character equality is scalar-value equality. -/
theorem char_eq_iff_toNat (c d : Char) : c = d ↔ c.toNat = d.toNat :=
  ⟨fun h => h ▸ rfl, char_eq_of_toNat_eq⟩

/-- Arithmetic reading of `hexOrWild`. -/
theorem hexOrWild_iff (c : Char) : hexOrWild c = true ↔
    (c.toNat = 63 ∨ (48 ≤ c.toNat ∧ c.toNat ≤ 57) ∨ (65 ≤ c.toNat ∧ c.toNat ≤ 70) ∨
      (97 ≤ c.toNat ∧ c.toNat ≤ 102)) := by
  simp only [hexOrWild, decide_eq_true_eq, char_eq_iff_toNat, char_le_iff_toNat,
    show ('?').toNat = 63 from rfl, show ('0').toNat = 48 from rfl,
    show ('9').toNat = 57 from rfl, show ('A').toNat = 65 from rfl,
    show ('F').toNat = 70 from rfl, show ('a').toNat = 97 from rfl,
    show ('f').toNat = 102 from rfl]

/-- ASCII characters are one UTF-8 byte. -/
theorem utf8Size_one_of_le (c : Char) (h : c.toNat ≤ 127) : c.utf8Size = 1 := by
  unfold Char.utf8Size
  simp only []
  rw [if_pos]
  exact UInt32.le_def.mpr (by simpa [Char.toNat] using h)

/-- Hex digits and `'?'` are one UTF-8 byte. -/
theorem hexOrWild_utf8Size (c : Char) (h : hexOrWild c = true) : c.utf8Size = 1 := by
  apply utf8Size_one_of_le
  rcases (hexOrWild_iff c).mp h with h | h | h | h <;> omega

/-- On a valid character, `parse_nibble` returns the claim's nibble. -/
theorem parse_nibble_eq (c : Char) (h : hexOrWild c = true) :
    parse_nibble c = .ok (if c = '?' then (0, 0) else (hexVal c, 0xF)) := by
  simp only [hexOrWild, decide_eq_true_eq] at h
  unfold parse_nibble hexVal
  split_ifs with h1 h2 h3 h4 <;> first | rfl | (exfalso; tauto)

/-- On an invalid character, `parse_nibble` errors. -/
theorem parse_nibble_error (c : Char) (h : hexOrWild c = false) :
    parse_nibble c = .error "Invalid hex character" := by
  simp only [hexOrWild, decide_eq_false_iff_not] at h
  unfold parse_nibble
  rw [if_neg (fun hc => h (Or.inl hc)),
    if_neg (fun hc => h (Or.inr (Or.inl hc))),
    if_neg (fun hc => h (Or.inr (Or.inr (Or.inl hc)))),
    if_neg (fun hc => h (Or.inr (Or.inr (Or.inr hc))))]

/-- On a valid two-character token, `parse_byte` yields the claim's
`(value, mask)` byte. -/
theorem parse_byte_eq_claim (c1 c2 : Char) (h1 : hexOrWild c1 = true) (h2 : hexOrWild c2 = true) :
    parse_byte c1 c2 = .ok (claimTokenByte [c1, c2]) := by
  unfold parse_byte claimTokenByte
  rw [parse_nibble_eq c1 h1, parse_nibble_eq c2 h2]
  by_cases hq1 : c1 = '?' <;> by_cases hq2 : c2 = '?' <;>
    simp [hq1, hq2]

/-- With an invalid character on either side, `parse_byte` errors. -/
theorem parse_byte_error (c1 c2 : Char) (h : hexOrWild c1 = false ∨ hexOrWild c2 = false) :
    ∃ e, parse_byte c1 c2 = .error e := by
  unfold parse_byte
  rcases h with h | h
  · rw [parse_nibble_error c1 h]
    rcases hr : parse_nibble c2 with e2 | v2 <;> exact ⟨_, rfl⟩
  · rw [parse_nibble_error c2 h]
    rcases hr : parse_nibble c1 with e1 | v1
    · exact ⟨_, rfl⟩
    · rcases v1 with ⟨a, b⟩; exact ⟨_, rfl⟩

/-- A valid token is two valid characters. -/
theorem valid_token_shape (t : List Char) (h : claimValidToken t = true) :
    ∃ c1 c2, t = [c1, c2] ∧ hexOrWild c1 = true ∧ hexOrWild c2 = true := by
  simp only [claimValidToken, List.all_eq_true, Bool.and_eq_true, decide_eq_true_eq] at h
  match t, h with
  | [c1, c2], ⟨_, hall⟩ =>
    exact ⟨c1, c2, rfl, hall c1 (by simp), hall c2 (by simp)⟩

/-- A valid token is two UTF-8 bytes. -/
theorem valid_utf8Len (t : List Char) (h : claimValidToken t = true) : utf8Len t = 2 := by
  obtain ⟨c1, c2, rfl, h1, h2⟩ := valid_token_shape t h
  simp [utf8Len, hexOrWild_utf8Size c1 h1, hexOrWild_utf8Size c2 h2]

/-- The token loop maps each valid token to its claimed byte. -/
theorem parseTokens_ok (ts : List (List Char)) (h : ∀ t ∈ ts, claimValidToken t = true) :
    parseTokens ts = some (.ok (ts.map claimTokenByte)) := by
  induction ts with
  | nil => rfl
  | cons t rest ih =>
    have hv := h t (List.mem_cons_self t rest)
    obtain ⟨c1, c2, rfl, h1, h2⟩ := valid_token_shape t hv
    rw [parseTokens]
    rw [if_neg (by simp [valid_utf8Len _ hv])]
    rw [parse_byte_eq_claim c1 c2 h1 h2]
    rw [ih (fun t ht => h t (List.mem_cons_of_mem _ ht))]
    rfl

/-- An invalid two-character token has an invalid character. -/
theorem not_valid_two (c1 c2 : Char) (h : claimValidToken [c1, c2] = false) :
    hexOrWild c1 = false ∨ hexOrWild c2 = false := by
  simp only [claimValidToken, List.all_cons, List.all_nil] at h
  by_cases b1 : hexOrWild c1 = false
  · exact Or.inl b1
  · right
    by_contra b2
    simp [Bool.not_eq_false] at b1 b2
    simp [b1, b2] at h

/-- The token loop errors when some token is invalid, provided no token takes
the panicking shape (two UTF-8 bytes but not two characters). -/
theorem parseTokens_error (ts : List (List Char))
    (hbad : ∃ t ∈ ts, claimValidToken t = false)
    (hnp : ∀ t ∈ ts, utf8Len t = 2 → t.length = 2) :
    ∃ e, parseTokens ts = some (.error e) := by
  induction ts with
  | nil => simp at hbad
  | cons t rest ih =>
    by_cases hv : claimValidToken t = true
    · obtain ⟨c1, c2, rfl, h1, h2⟩ := valid_token_shape t hv
      rw [parseTokens]
      rw [if_neg (by simp [valid_utf8Len _ hv])]
      rw [parse_byte_eq_claim c1 c2 h1 h2]
      rcases hbad with ⟨u, hu, hbu⟩
      rcases List.mem_cons.mp hu with rfl | hu
      · rw [hv] at hbu; exact absurd hbu (by simp)
      · obtain ⟨e, he⟩ := ih ⟨u, hu, hbu⟩ (fun x hx => hnp x (List.mem_cons_of_mem _ hx))
        exact ⟨e, by rw [he]; rfl⟩
    · rw [Bool.not_eq_true] at hv
      by_cases hl : utf8Len t = 2
      · have hlen := hnp t (List.mem_cons_self t rest) hl
        rcases t with _ | ⟨c1, t2⟩
        · simp at hlen
        rcases t2 with _ | ⟨c2, t3⟩
        · simp at hlen
        rcases t3 with _ | ⟨c3, t4⟩
        · rw [parseTokens]
          rw [if_neg (by simp [hl])]
          obtain ⟨e, he⟩ := parse_byte_error c1 c2 (not_valid_two c1 c2 hv)
          exact ⟨e, by rw [he]⟩
        · simp at hlen
      · refine ⟨"Invalid byte: expected 2 characters", ?_⟩
        rcases t with _ | ⟨c1, _ | ⟨c2, _ | _⟩⟩ <;> rw [parseTokens, if_pos hl] <;>
          (intro a b hEq; simp at hEq)

/-- C8 (amended). Over the tokens `splitWsChars (trimChars input)` of the
input: (a) when there is at least one token and every token is two characters
over hex digits and `'?'`, `parse_pattern` succeeds with one `(value, mask)`
byte per token as the claim maps it (`?? → (0,0)`, `h? → (h*16, 0xF0)`,
`?h → (h, 0x0F)`, `hh → (byte, 0xFF)`); (b) on empty or whitespace-only input
it returns the "Empty pattern" error; (c) when some token is invalid it
returns an error — provided no token consists of a single two-byte character,
the shape on which the source indexes `chars[1]` and panics instead of
erroring (the amendment; the original claim's unconditional error clause is
refuted by `C8_wide_char_token_no_error`). -/
theorem C8_pattern_token_grammar (input : List Char) :
    (splitWsChars (trimChars input) ≠ [] →
      (∀ t ∈ splitWsChars (trimChars input), claimValidToken t = true) →
      parse_pattern input =
        some (.ok ((splitWsChars (trimChars input)).map claimTokenByte)))
    ∧ (trimChars input = [] → parse_pattern input = some (.error "Empty pattern"))
    ∧ ((∃ t ∈ splitWsChars (trimChars input), claimValidToken t = false) →
      (∀ t ∈ splitWsChars (trimChars input), utf8Len t = 2 → t.length = 2) →
      ∃ e, parse_pattern input = some (.error e)) := by
  refine ⟨?_, ?_, ?_⟩
  · intro hne hall
    have htr : ¬(trimChars input).isEmpty := by
      intro h
      rw [List.isEmpty_iff] at h
      apply hne
      rw [h]
      rfl
    unfold parse_pattern
    simp only []
    rw [if_neg htr, parseTokens_ok _ hall]
    show (if (List.map claimTokenByte (splitWsChars (trimChars input))).isEmpty = true
        then some (Except.error "Empty pattern after parsing")
        else some (Except.ok (List.map claimTokenByte (splitWsChars (trimChars input))))) =
      some (Except.ok (List.map claimTokenByte (splitWsChars (trimChars input))))
    rw [if_neg (by simpa [List.isEmpty_iff, List.map_eq_nil_iff] using hne)]
  · intro h
    unfold parse_pattern
    simp only []
    rw [if_pos (by simp [h])]
  · intro hbad hnp
    have hne : splitWsChars (trimChars input) ≠ [] := by
      rcases hbad with ⟨t, ht, _⟩
      intro h
      rw [h] at ht
      simp at ht
    have htr : ¬(trimChars input).isEmpty := by
      intro h
      rw [List.isEmpty_iff] at h
      apply hne
      rw [h]
      rfl
    obtain ⟨e, he⟩ := parseTokens_error _ hbad hnp
    refine ⟨e, ?_⟩
    unfold parse_pattern
    simp only []
    rw [if_neg htr, he]

/-- C8 counterexample to the original claim's error clause: on the input
`"¢"` (U+00A2, one character of two UTF-8 bytes — a token that is not two
hex-or-`'?'` characters) `parse_pattern` does not return an error: the token
loop indexes `chars[1]` out of bounds and panics (modelled as `none`). -/
theorem C8_wide_char_token_no_error :
    parse_pattern [Char.ofNat 0xA2] = none ∧
    ∀ e : String, parse_pattern [Char.ofNat 0xA2] ≠ some (.error e) := by
  refine ⟨rfl, ?_⟩
  intro e h
  rw [show parse_pattern [Char.ofNat 0xA2] = none from rfl] at h
  exact Option.noConfusion h

/-- Witness for C8: the pattern `"1A ??"` parses to the bytes
`(0x1A, 0xFF), (0x00, 0x00)`. -/
theorem C8_pattern_token_grammar_witness :
    parse_pattern ['1', 'A', ' ', '?', '?'] = some (.ok [(26, 255), (0, 0)]) := by
  have h := (C8_pattern_token_grammar ['1', 'A', ' ', '?', '?']).1 (by decide) (by decide)
  rw [h]
  rfl

/-! ## Chain counting (`pointer_scan/chain_builder/bfs_v3.rs`) -/

/-- Entry `i` of one level's prefix-sum loop is the running total of the
per-node differences, as long as the grand total never saturates. -/
theorem countsAux_getD (prev : List Nat) :
    ∀ (ds : List PointerDir) (cum : Nat),
      cum + (ds.map (fun d => prev.getD d.stop 0 - prev.getD d.start 0)).sum ≤ USIZE_MAX →
      ∀ i < ds.length,
        (countsAux prev cum ds).getD i 0
          = cum + ((ds.take (i + 1)).map
              (fun d => prev.getD d.stop 0 - prev.getD d.start 0)).sum := by
  intro ds
  induction ds with
  | nil => intro cum _ i hi; simp at hi
  | cons d rest ih =>
    intro cum hsat i hi
    have hdiff : satAdd cum (prev.getD d.stop 0 - prev.getD d.start 0)
        = cum + (prev.getD d.stop 0 - prev.getD d.start 0) := by
      simp only [List.map_cons, List.sum_cons] at hsat
      unfold satAdd
      omega
    cases i with
    | zero =>
      simp only [countsAux, List.getD_cons_zero, List.take_succ_cons, List.take_zero,
        List.map_cons, List.map_nil, List.sum_cons, List.sum_nil]
      omega
    | succ n =>
      simp only [countsAux, List.getD_cons_succ, List.take_succ_cons, List.map_cons,
        List.sum_cons]
      rw [ih _ (by simp only [List.map_cons, List.sum_cons] at hsat; omega)
        n (by simpa using hi)]
      omega

/-- Entry `i` of `counts[L+1]` is the sum of the first `i` per-node
differences against `counts[L]`. -/
theorem buildCounts_getD (dirs : List (List PointerDir)) (L : Nat)
    (hsat : (((dirs.getD L []).map
        (fun d => (buildCounts dirs L).getD d.stop 0 - (buildCounts dirs L).getD d.start 0)).sum
      ≤ USIZE_MAX)) :
    ∀ i ≤ (dirs.getD L []).length,
      (buildCounts dirs (L + 1)).getD i 0
        = (((dirs.getD L []).take i).map
            (fun d => (buildCounts dirs L).getD d.stop 0 - (buildCounts dirs L).getD d.start 0)).sum := by
  intro i hi
  cases i with
  | zero => simp [buildCounts]
  | succ n =>
    show (0 :: countsAux (buildCounts dirs L) 0 (dirs.getD L [])).getD (n + 1) 0 = _
    rw [List.getD_cons_succ]
    rw [countsAux_getD (buildCounts dirs L) (dirs.getD L []) 0 (by omega) n (by omega)]
    omega

/-- Sum over a prefix of a list as a `Finset.range` sum of its entries. -/
theorem take_map_sum_eq (l : List PointerDir) (f : PointerDir → Nat) :
    ∀ i ≤ l.length, ((l.take i).map f).sum = ∑ j ∈ Finset.range i, f (l.getD j default) := by
  intro i
  induction i with
  | zero => intro _; simp
  | succ n ih =>
    intro h
    rw [Finset.sum_range_succ, ← ih (by omega)]
    rw [List.take_succ]
    have : l[n]? = some (l.getD n default) := by
      rw [List.getD_eq_getElem l default (by omega)]
      exact List.getElem?_eq_getElem (by omega)
    rw [this]
    simp

/-- C4: chain counting correctness.  With `counts[0] = [0, 1]` and
`counts[L][i+1] = counts[L][i] + (counts[L-1][dir_i.end] - counts[L-1][dir_i.start])`
accumulated over the level-`(L-1)` contents (`buildCounts`), every BFS node
`d` at level `L` that is well-formed (`dirWF`: level-0 nodes carry `[0, 1)`,
higher nodes carry index ranges into the level below) satisfies
`counts[L][d.end] - counts[L][d.start] = pathsCount d`, the number of
distinct level-0 leaf paths reachable from `d` by following the child index
ranges down `L` levels — provided every lower level is well-formed and its
total leaf-path count fits in a `usize` (`chainWF`), so that the source's
`saturating_add`/`saturating_sub` never clamp. -/
theorem C4_chain_counting (dirs : List (List PointerDir)) :
    ∀ (L : Nat), chainWF dirs L → ∀ d : PointerDir, dirWF dirs L d →
      (buildCounts dirs L).getD d.stop 0 - (buildCounts dirs L).getD d.start 0
        = pathsCount dirs L d := by
  intro L
  induction L with
  | zero =>
    intro _ d hd
    obtain ⟨h1, h2⟩ := hd
    rw [h1, h2]
    rfl
  | succ L ih =>
    intro hwf d hd
    obtain ⟨hss, hsl⟩ := hd
    have hlev := hwf L (by omega)
    have hwf' : chainWF dirs L := fun l hl => hwf l (by omega)
    have hmap : (dirs.getD L []).map
        (fun d' => (buildCounts dirs L).getD d'.stop 0 - (buildCounts dirs L).getD d'.start 0)
        = (dirs.getD L []).map (pathsCount dirs L) :=
      List.map_congr_left (fun d' hd' => ih hwf' d' (hlev.1 d' hd'))
    have hsat : (((dirs.getD L []).map
        (fun d' => (buildCounts dirs L).getD d'.stop 0 - (buildCounts dirs L).getD d'.start 0)).sum
        ≤ USIZE_MAX) := by
      rw [hmap]; exact hlev.2
    have hstop := buildCounts_getD dirs L hsat d.stop hsl
    have hstart := buildCounts_getD dirs L hsat d.start (le_trans hss hsl)
    rw [hstop, hstart]
    simp only [List.map_take]
    rw [hmap]
    simp only [← List.map_take]
    rw [take_map_sum_eq _ _ d.stop hsl, take_map_sum_eq _ _ d.start (le_trans hss hsl)]
    have hsplit : (∑ j ∈ Finset.Ico 0 d.start, pathsCount dirs L ((dirs.getD L []).getD j default))
        + (∑ j ∈ Finset.Ico d.start d.stop, pathsCount dirs L ((dirs.getD L []).getD j default))
        = ∑ j ∈ Finset.Ico 0 d.stop, pathsCount dirs L ((dirs.getD L []).getD j default) :=
      Finset.sum_Ico_consecutive _ (Nat.zero_le d.start) hss
    rw [pathsCount]
    rw [Finset.range_eq_Ico]
    omega

/-- Witness for C4: one level of two leaves; the level-1 node covering both
children counts 2 leaf paths, and `counts[1][2] - counts[1][0] = 2`. -/
theorem C4_chain_counting_witness :
    pathsCount [[⟨100, 0, 0, 1⟩, ⟨200, 0, 0, 1⟩]] 1 ⟨0, 0, 0, 2⟩ = 2 ∧
    (buildCounts [[⟨100, 0, 0, 1⟩, ⟨200, 0, 0, 1⟩]] 1).getD 2 0
      - (buildCounts [[⟨100, 0, 0, 1⟩, ⟨200, 0, 0, 1⟩]] 1).getD 0 0 = 2 := by
  have h := C4_chain_counting [[⟨100, 0, 0, 1⟩, ⟨200, 0, 0, 1⟩]] 1
    (by
      intro l hl
      have hl0 : l = 0 := by omega
      subst hl0
      refine ⟨?_, ?_⟩
      · intro d hd
        rcases List.mem_cons.mp hd with rfl | hd
        · exact ⟨rfl, rfl⟩
        · rcases List.mem_cons.mp hd with rfl | hd
          · exact ⟨rfl, rfl⟩
          · simp at hd
      · decide)
    ⟨0, 0, 0, 2⟩ ⟨by decide, by decide⟩
  refine ⟨by decide, ?_⟩
  rw [h]
  decide
